import Mathlib

/-!
Shallow embedding of `scripts/parse_results.py` (svalboard_layout_optimizer).

Modelling conventions:
* Python `str` values are modelled as `List Char`.
* Python `float` values are modelled as exact rationals (`ℚ`).  Fixed-point
  formatting (`f"{x:.nf}"` and `round(x, n)`) is modelled as round-half-even
  on the exact rational; this agrees with CPython on every value whose decimal
  literal is exactly representable and on every non-tie, which covers all
  inputs used in the theorems below.
* A Python exception is modelled as `none` (`Option`) or `.error` (`Except`).
* `float(...)` string parsing is modelled on the fragment actually reachable
  from this script: optional surrounding whitespace, optional sign, digits
  with at most one decimal point.  Exponent, underscore, `inf`/`nan` forms are
  outside the model.
* Regular expressions are hand-compiled to scanners.  Where the Python regex
  engine's backtracking is provably fruitless (shrinking a greedy `[0-9.]+` or
  `\d+` run leaves a digit or dot where a literal `%` or `.` is required) the
  scanner implements only the reachable branch; where backtracking matters
  (the `(\d+\.\d+)(?!%\))` pattern of `clean_worst_message`) it is implemented
  explicitly (`btkAux`).
-/

namespace PR

/-- Whitespace characters stripped by Python `str.strip()`. -/
def isWS (c : Char) : Bool :=
  c = ' ' || c = '\t' || c = '\n' || c = '\r' || c = '\x0b' || c = '\x0c'

/-- Python `\w` word character, modelled on the ASCII fragment. -/
def isWordChar (c : Char) : Bool := c.isAlpha || c.isDigit || c = '_'

/-- Python's Unicode `str.isalpha` (character categories L*), modelled
exactly on the Basic Latin and Latin-1 Supplement blocks: the ASCII letters
plus the Latin-1 letters U+00AA, U+00B5, U+00BA, U+00C0..U+00D6,
U+00D8..U+00F6 and U+00F8..U+00FF (U+00D7 `×` and U+00F7 `÷` are not
letters).  Characters above U+00FF are outside the modelled fragment. -/
def pyIsAlpha (c : Char) : Bool :=
  c.isAlpha ||
    (c = '\u00AA' || c = '\u00B5' || c = '\u00BA' ||
      ('\u00C0' ≤ c && c ≤ '\u00D6') || ('\u00D8' ≤ c && c ≤ '\u00F6') ||
      ('\u00F8' ≤ c && c ≤ '\u00FF'))

/-- Characters matched by the `[0-9.]` class. -/
def isDigitDot (c : Char) : Bool := c.isDigit || c = '.'

/-- Boolean test that `pat` is a prefix of `s`. -/
def startsWithB : List Char → List Char → Bool
  | [], _ => true
  | _ :: _, [] => false
  | a :: as, b :: bs => if a = b then startsWithB as bs else false

/-- Index of the leftmost occurrence of `pat` in `s` (Python `str.find` / `in`). -/
def findSubIdx (pat : List Char) : List Char → Option Nat
  | [] => if startsWithB pat [] then some 0 else none
  | c :: r =>
    if startsWithB pat (c :: r) then some 0
    else (findSubIdx pat r).map (fun i => i + 1)

/-- Substring containment, Python `pat in s`. -/
def containsSub (pat s : List Char) : Bool := (findSubIdx pat s).isSome

/-- Everything after the first occurrence of `pat` (empty if no occurrence). -/
def afterFirstSub (pat s : List Char) : List Char :=
  match findSubIdx pat s with
  | none => []
  | some i => s.drop (i + pat.length)

/-- Everything before the first occurrence of `pat` (all of `s` if none). -/
def beforeFirstSub (pat s : List Char) : List Char :=
  match findSubIdx pat s with
  | none => s
  | some i => s.take i

/-- Fuelled worker for Python `str.split(sep)` with non-empty `sep`. -/
def splitOnSubF (pat : List Char) : Nat → List Char → List (List Char)
  | fuel, s =>
    match findSubIdx pat s with
    | none => [s]
    | some i =>
      match fuel with
      | 0 => [s]
      | f + 1 => s.take i :: splitOnSubF pat f (s.drop (i + pat.length))

/-- Python `str.split(sep)` for a non-empty separator. -/
def splitOnSub (pat s : List Char) : List (List Char) := splitOnSubF pat s.length s

/-- Fuelled worker for Python `str.replace(old, new)` with non-empty `old`. -/
def replaceAllF (old new : List Char) : Nat → List Char → List Char
  | fuel, s =>
    match findSubIdx old s with
    | none => s
    | some i =>
      match fuel with
      | 0 => s
      | f + 1 => s.take i ++ new ++ replaceAllF old new f (s.drop (i + old.length))

/-- Python `str.replace(old, new)`; the `old = []` case (which Python treats
specially) is unreachable in this script and returns `s` unchanged. -/
def pyReplaceAll (old new s : List Char) : List Char :=
  if old.isEmpty then s else replaceAllF old new s.length s

/-- Python `str.strip()`. -/
def stripWS (s : List Char) : List Char :=
  ((s.dropWhile isWS).reverse.dropWhile isWS).reverse

/-- Python `str.rstrip(c)` for a single-character strip set. -/
def rstripChar (c : Char) (s : List Char) : List Char :=
  (s.reverse.dropWhile (fun x => x = c)).reverse

/-- Join a list of strings with a separator (Python `sep.join`). -/
def joinSep (sep : List Char) : List (List Char) → List Char
  | [] => []
  | [x] => x
  | x :: y :: r => x ++ sep ++ joinSep sep (y :: r)

/-- Numeric value of a decimal digit character. -/
def digitVal (c : Char) : Nat := c.toNat - 48

/-- Value of a big-endian list of decimal digits. -/
def natOfDigits (ds : List Char) : Nat :=
  ds.foldl (fun a c => a * 10 + digitVal c) 0

/-- Fuelled big-endian decimal rendering of a natural number. -/
def natToDigitsAux : Nat → Nat → List Char → List Char
  | 0, _, acc => acc
  | f + 1, n, acc =>
    let d := Char.ofNat (48 + n % 10)
    if n < 10 then d :: acc else natToDigitsAux f (n / 10) (d :: acc)

/-- Big-endian decimal digits of a natural number (`"0"` for zero). -/
def natToDigits (n : Nat) : List Char := natToDigitsAux (n + 1) n []

/-- Exact value of `ds.fs` read as a decimal literal. -/
def decVal (ds fs : List Char) : ℚ :=
  (natOfDigits ds : ℚ) + (natOfDigits fs : ℚ) / ((10 : ℚ) ^ fs.length)

/-- Python `float` on a run of digits and dots (a `[0-9.]+` capture): valid iff
it has at most one dot and at least one digit. -/
def parseDigitsDots (t : List Char) : Option ℚ :=
  match splitOnSub [('.')] t with
  | [a] => if a.isEmpty then none else some ((natOfDigits a : ℚ))
  | [a, b] => if a.isEmpty && b.isEmpty then none else some (decVal a b)
  | _ => none

/-- Python `float` on a whitespace-separated token: optional surrounding
whitespace, optional sign, digits with at most one dot (modelled fragment). -/
def pyFloatToken (t : List Char) : Option ℚ :=
  let u := stripWS t
  match u with
  | '+' :: body =>
    if body.all isDigitDot then parseDigitsDots body else none
  | '-' :: body =>
    if body.all isDigitDot then (parseDigitsDots body).map (fun q => -q) else none
  | body =>
    if body.all isDigitDot then parseDigitsDots body else none

/-- Round to the nearest integer, ties to even (CPython float formatting and
`round`). -/
def roundHalfEvenInt (x : ℚ) : ℤ :=
  let f := Rat.floor x
  let r := x - (f : ℚ)
  if r < 1 / 2 then f
  else if 1 / 2 < r then f + 1
  else if f % 2 = 0 then f else f + 1

/-- Python `round(x, n)` on the exact-rational model. -/
def roundPyQ (x : ℚ) (n : Nat) : ℚ :=
  ((roundHalfEvenInt (x * (10 : ℚ) ^ n) : ℚ)) / ((10 : ℚ) ^ n)

/-- Python `f"{x:.nf}"` fixed-point formatting on the exact-rational model. -/
def renderFixed (n : Nat) (q : ℚ) : List Char :=
  let m := roundHalfEvenInt (q * (10 : ℚ) ^ n)
  let sign := if m < 0 then [('-')] else []
  let v := m.natAbs
  let ip := natToDigits (v / 10 ^ n)
  let fp := natToDigits (v % 10 ^ n)
  let fpPad := List.replicate (n - fp.length) ('0') ++ fp
  if n = 0 then sign ++ ip else sign ++ ip ++ ('.') :: fpPad

/-- Smallest `k ≤ 60` with `q * 10 ^ k` integral, if any. -/
def findDecExp (q : ℚ) : Option Nat :=
  (List.range 61).find? (fun k => (q * (10 : ℚ) ^ k).den = 1)

/-- Python `str(x)` for a float, modelled as the shortest exact decimal
rendering (agrees with CPython `repr` on all short decimal values reachable
here). -/
def pyStrFloat (q : ℚ) : List Char :=
  match findDecExp q with
  | none => [('?')]
  | some k =>
    let sign := if q < 0 then [('-')] else []
    let v := (q * (10 : ℚ) ^ k).num.natAbs
    if k = 0 then sign ++ natToDigits v ++ [('.'), ('0')]
    else
      let ds0 := natToDigits v
      let ds := if ds0.length ≤ k then List.replicate (k + 1 - ds0.length) ('0') ++ ds0 else ds0
      sign ++ ds.take (ds.length - k) ++ ('.') :: ds.drop (ds.length - k)

/-- Fuelled `re.sub` driver: at each position try the matcher; on a match emit
its replacement and continue after the consumed text, else keep one character
and advance (Python scans left to right, never rescanning replacements). -/
def scanSub (try' : List Char → Option (List Char × List Char)) :
    Nat → List Char → List Char
  | _, [] => []
  | 0, s => s
  | f + 1, c :: rest =>
    match try' (c :: rest) with
    | some (rep, rem) => rep ++ scanSub try' f rem
    | none => c :: scanSub try' f rest

/-- Fuelled `re.findall` driver: collect one item per non-overlapping leftmost
match, in order. -/
def scanCollect {α : Type} (try' : List Char → Option (α × List Char)) :
    Nat → List Char → List α
  | _, [] => []
  | 0, _ => []
  | f + 1, c :: rest =>
    match try' (c :: rest) with
    | some (a, rem) => a :: scanCollect try' f rem
    | none => scanCollect try' f rest

/-- Literal `"Worst:"` marker tested by `extract_worst_bigrams`. -/
def worstMarker : List Char := ("Worst:").toList

/-- Single-character separator `";"`. -/
def semiSep : List Char := (";").toList

/-- Matcher for one occurrence of `(\w{2}) \(([0-9.]+)%\)`: two word
characters, a space, `(`, a greedy run of digits and dots, `%)`.  Shrinking
the greedy run in backtracking is fruitless (the next character would be a
digit or dot, never `%`), so only the greedy branch is implemented. -/
def tryPair (s : List Char) : Option ((List Char × List Char) × List Char) :=
  match s with
  | c1 :: c2 :: csp :: cop :: r =>
    if isWordChar c1 && isWordChar c2 && csp = ' ' && cop = '(' then
      let ds := r.takeWhile isDigitDot
      match r.dropWhile isDigitDot with
      | cpc :: ccl :: rest =>
        if ds.isEmpty = false && cpc = '%' && ccl = ')' then
          some (((c1 :: c2 :: []), ds), rest)
        else none
      | _ => none
    else none
  | _ => none

/-- Embedding of `extract_worst_bigrams`: `none` models the `ValueError`
raised by `float` on a capture with several dots. -/
def extract_worst_bigrams (m : List Char) : Option (List (List Char × ℚ)) :=
  if containsSub worstMarker m = false then some []
  else
    let sec0 := (splitOnSub worstMarker m).getD 1 []
    let sec := if containsSub semiSep sec0 then (splitOnSub semiSep sec0).getD 0 [] else sec0
    (scanCollect tryPair sec.length sec).mapM
      (fun p => (parseDigitsDots p.2).map (fun q => (p.1, q)))

/-- Frequency table: a Python dict keyed by bigram. -/
abbrev FreqDict := List (List Char × ℚ)

/-- Python dict insertion: overwrite in place if the key exists, else append. -/
def dictInsert {α : Type} : List (List Char × α) → List Char → α → List (List Char × α)
  | [], k, v => [(k, v)]
  | e :: rest, k, v => if e.1 = k then (k, v) :: rest else e :: dictInsert rest k v

/-- Python dict lookup (keys are unique by construction of `dictInsert`). -/
def dictLookup {α : Type} (d : List (List Char × α)) (k : List Char) : Option α :=
  (d.find? (fun e => decide (e.1 = k))).map (fun e => e.2)

/-- Python `dict.get(k, dflt)`. -/
def dictLookupD {α : Type} (d : List (List Char × α)) (k : List Char) (dflt : α) : α :=
  (dictLookup d k).getD dflt

/-- The `f"{freq:.2f}%".rstrip("0").rstrip(".")` expression of
`add_frequencies`, embedded verbatim: the `%` is appended before stripping. -/
def freqStr2 (q : ℚ) : List Char :=
  rstripChar ('.') (rstripChar ('0') (renderFixed 2 q ++ [('%')]))

/-- The `f"{bigram} ({percent}%, freq: {freq_str})"` expression built for one
finding by `add_frequencies`. -/
def enhancePart (bf : FreqDict) (bp : List Char × ℚ) : List Char :=
  bp.1 ++ (" (").toList ++ pyStrFloat bp.2 ++ ("%, freq: ").toList
    ++ freqStr2 (dictLookupD bf bp.1 0) ++ (")").toList

/-- Embedding of `add_frequencies`; `none` models a propagated `ValueError`
from `extract_worst_bigrams`. -/
def add_frequencies (m : List Char) (bf : FreqDict) : Option (List Char) :=
  match extract_worst_bigrams m with
  | none => none
  | some ws =>
    if ws.isEmpty || containsSub worstMarker m = false then some m
    else
      let enhanced := (splitOnSub worstMarker m).getD 0 []
        ++ ("Worst: ").toList ++ joinSep ((", ").toList) (ws.map (enhancePart bf))
      if containsSub semiSep m then some (enhanced ++ semiSep ++ afterFirstSub semiSep m)
      else some enhanced

/-- Literal `"freq: "` of the `format_frequencies` pattern. -/
def freqLit : List Char := ("freq: ").toList

/-- The `f"{freq_value:.3f}"` / strip / restore-`.0` replacement body of
`format_frequencies`. -/
def fmt3 (q : ℚ) : List Char :=
  let s := rstripChar ('.') (rstripChar ('0') (renderFixed 3 q))
  if containsSub [('.')] s then s else s ++ [('.'), ('0')]

/-- Matcher for one occurrence of `freq: (\d+\.?\d*)`, producing the
substituted text: `freq: ` then the reformatted number. -/
def tryFreq (s : List Char) : Option (List Char × List Char) :=
  if startsWithB freqLit s then
    let r := s.drop freqLit.length
    let ds := r.takeWhile Char.isDigit
    let r1 := r.dropWhile Char.isDigit
    if ds.isEmpty then none
    else if startsWithB [('.')] r1 then
      let r2 := r1.drop 1
      let fs := r2.takeWhile Char.isDigit
      let r3 := r2.dropWhile Char.isDigit
      some (freqLit ++ fmt3 (decVal ds fs), r3)
    else some (freqLit ++ fmt3 (decVal ds []), r1)
  else none

/-- Embedding of `format_frequencies`. -/
def format_frequencies (m : List Char) : List Char := scanSub tryFreq m.length m

/-- Lookahead literal `"%)"` of the `(\d+\.\d+)(?!%\))` pattern. -/
def lookPR : List Char := ("%)").toList

/-- Backtracking over the fractional `\d+` of `(\d+\.\d+)(?!%\))`: try the
greedy length first, shrinking while the negative lookahead `(?!%\))` fails;
returns the accepted fractional length. -/
def btkAux (fs r3 : List Char) : Nat → Option Nat
  | 0 => none
  | k + 1 =>
    if startsWithB lookPR (fs.drop (k + 1) ++ r3) then btkAux fs r3 k
    else some (k + 1)

/-- Matcher for `(\d+\.\d+)(?!%\))` with replacement `f"{x:.1f}"`; shrinking
the integer-part `\d+` is fruitless (the `\.` would face a digit) and is not
implemented. -/
def tryBare (s : List Char) : Option (List Char × List Char) :=
  let ds := s.takeWhile Char.isDigit
  let r1 := s.dropWhile Char.isDigit
  if ds.isEmpty then none
  else if startsWithB [('.')] r1 then
    let r2 := r1.drop 1
    let fs := r2.takeWhile Char.isDigit
    let r3 := r2.dropWhile Char.isDigit
    if fs.isEmpty then none
    else
      match btkAux fs r3 fs.length with
      | none => none
      | some k => some (renderFixed 1 (decVal ds (fs.take k)), fs.drop k ++ r3)
  else none

/-- Specification-side matcher for the disbalance rounding rule, written from
the amended claim: a decimal number not followed by `%)` is rounded whole; one
followed by `%)` matches without its last fractional digit when it has at
least two, and not at all otherwise. -/
def specTryBare (s : List Char) : Option (List Char × List Char) :=
  let ds := s.takeWhile Char.isDigit
  let r1 := s.dropWhile Char.isDigit
  if ds.isEmpty then none
  else if startsWithB [('.')] r1 then
    let r2 := r1.drop 1
    let fs := r2.takeWhile Char.isDigit
    let r3 := r2.dropWhile Char.isDigit
    if fs.isEmpty then none
    else
      if startsWithB lookPR r3 = false then
        some (renderFixed 1 (decVal ds fs), r3)
      else if 2 ≤ fs.length then
        some (renderFixed 1 (decVal ds (fs.take (fs.length - 1))),
              fs.drop (fs.length - 1) ++ r3)
      else none
  else none

/-- Literal `"%,"` of the `(\d+\.\d+)%,` pattern. -/
def pctComma : List Char := ("%,").toList

/-- Matcher for `(\d+\.\d+)%,` with replacement `f"{x:.2f}%,"`; backtracking
is fruitless here (a shrunk run faces a digit, never `%`). -/
def tryPct2 (s : List Char) : Option (List Char × List Char) :=
  let ds := s.takeWhile Char.isDigit
  let r1 := s.dropWhile Char.isDigit
  if ds.isEmpty then none
  else if startsWithB [('.')] r1 then
    let r2 := r1.drop 1
    let fs := r2.takeWhile Char.isDigit
    let r3 := r2.dropWhile Char.isDigit
    if fs.isEmpty then none
    else
      if startsWithB pctComma r3 then
        some (renderFixed 2 (decVal ds fs) ++ pctComma, r3.drop 2)
      else none
  else none

/-- The `";  Worst non-fixed:"` cut marker (two spaces). -/
def nonFixedMarker : List Char := (";  Worst non-fixed:").toList

/-- The three label strings removed by `clean_worst_message`. -/
def fingerLabel : List Char := ("Finger loads % (no thumb): ").toList

/-- Second removed label. -/
def handLabel : List Char := ("Hand loads % (no thumb): ").toList

/-- Third removed label (note the trailing space, unlike `worstMarker`). -/
def worstLabel : List Char := ("Worst: ").toList

/-- The label-removal stage of `clean_worst_message`: three sequential
`str.replace(prefix, "")` calls, in source order. -/
def removeLabels (m : List Char) : List Char :=
  pyReplaceAll worstLabel []
    (pyReplaceAll handLabel [] (pyReplaceAll fingerLabel [] m))

/-- Metric names taking the 1-decimal bare-number branch. -/
def hdName : List Char := ("Hand Disbalance").toList

/-- Second metric name of the 1-decimal branch. -/
def fbName : List Char := ("Finger Balance").toList

/-- The `";  Worst non-fixed:"` truncation stage of `clean_worst_message`. -/
def cutNonFixed (m : List Char) : List Char :=
  if containsSub nonFixedMarker m then (splitOnSub nonFixedMarker m).getD 0 [] else m

/-- Embedding of `clean_worst_message`. -/
def clean_worst_message (m metricName : List Char) : List Char :=
  let m2 := removeLabels (cutNonFixed m)
  let m3 :=
    if metricName = hdName || metricName = fbName then scanSub tryBare m2.length m2
    else scanSub tryPct2 m2.length m2
  stripWS m3

/-- One iteration of the `load_bigram_frequencies` loop on one line; `none`
models the `ValueError` of `float(parts[0])`.  Note the source splits on a
single space (`split(" ")`), not on general whitespace, and
`bigram.isalpha()` is Python's Unicode test, modelled by `pyIsAlpha`
(exact on the Basic Latin and Latin-1 blocks). -/
def loadStep (acc : FreqDict) (line : List Char) : Option FreqDict :=
  let parts := splitOnSub [(' ')] (stripWS line)
  if 2 ≤ parts.length then
    match pyFloatToken (parts.getD 0 []) with
    | none => none
    | some freq =>
      let bigram := parts.getD 1 []
      if bigram.length = 2 && bigram.all pyIsAlpha then
        some (dictInsert acc bigram freq)
      else some acc
  else some acc

/-- Embedding of `load_bigram_frequencies`, taking the file's lines. -/
def load_bigram_frequencies (lines : List (List Char)) : Option FreqDict :=
  lines.foldlM loadStep []

/-- The `core` record of a metric cost. -/
structure Core where
  name : List Char
  message : List Char
deriving DecidableEq

/-- One entry of `metric_costs`. -/
structure MetricCost where
  core : Core
  weighted_cost : ℚ
deriving DecidableEq

/-- One entry of `individual_results`. -/
structure IndividualResult where
  metric_costs : List MetricCost
deriving DecidableEq

/-- The `details` object of a raw result. -/
structure Details where
  layout : List Char
  individual_results : List IndividualResult
deriving DecidableEq

/-- One optimizer output record of the results JSON array. -/
structure RawResult where
  total_cost : ℚ
  details : Details
deriving DecidableEq

/-- Metric name `"Scissoring"`. -/
def scissoringName : List Char := ("Scissoring").toList

/-- Metric name `"Cluster Rolls"`. -/
def clusterRollsName : List Char := ("Cluster Rolls").toList

/-- Value stored per metric name by `process_layout_metrics`. -/
structure MetricEntry where
  cost : ℚ
  message : List Char
deriving DecidableEq

/-- Embedding of `process_layout_metrics`: flatten all metric costs into a
dict (later same-named metrics overwrite), enriching Scissoring and Cluster
Rolls messages when the frequency table is non-empty (a Python dict is falsy
iff empty). -/
def process_layout_metrics (result : RawResult) (bf : FreqDict) :
    Option (List (List Char × MetricEntry)) :=
  result.details.individual_results.foldlM (fun acc ir =>
    ir.metric_costs.foldlM (fun acc mc =>
      (if (mc.core.name = scissoringName || mc.core.name = clusterRollsName)
          && !bf.isEmpty then
        (add_frequencies mc.core.message bf).map format_frequencies
      else some mc.core.message).map (fun msg =>
        dictInsert acc mc.core.name { cost := mc.weighted_cost, message := msg })) acc) []

/-- Format kind of a column definition. -/
inductive FormatKind where
  | number
  | message_only
  | worst_only
deriving DecidableEq

/-- One entry of `METRICS_ORDER`. -/
structure ColumnSpec where
  display : List Char
  metric : List Char
  fmt : FormatKind
  decimals : Option Nat
deriving DecidableEq

/-- Embedding of the `METRICS_ORDER` constant. -/
def METRICS_ORDER : List ColumnSpec :=
  [⟨("Total Cost").toList, ("total_cost").toList, .number, some 1⟩,
   ⟨("Hands Disbalance").toList, ("Hand Disbalance").toList, .message_only, none⟩,
   ⟨("Finger Disbalance").toList, ("Finger Balance").toList, .message_only, none⟩,
   ⟨("Cluster Rolls").toList, ("Cluster Rolls").toList, .number, some 2⟩,
   ⟨("Scissoring").toList, ("Scissoring").toList, .number, some 2⟩,
   ⟨("Key Costs").toList, ("Key Costs").toList, .number, some 2⟩,
   ⟨("Movement Pattern").toList, ("Movement Pattern").toList, .number, some 2⟩,
   ⟨("Cluster Rolls Worst").toList, ("Cluster Rolls").toList, .worst_only, none⟩,
   ⟨("Scissoring Worst").toList, ("Scissoring").toList, .worst_only, none⟩,
   ⟨("Movement Pattern Worst").toList, ("Movement Pattern").toList, .worst_only, none⟩,
   ⟨("Secondary Bigrams Worst").toList, ("Secondary Bigrams").toList, .worst_only, none⟩,
   ⟨("Trigrams Worst").toList, ("No Handswitch in Trigram").toList, .worst_only, none⟩]

/-- The `"Layout"` header. -/
def layoutHeader : List Char := ("Layout").toList

/-- The `"Total Cost"` display header. -/
def totalCostHeader : List Char := ("Total Cost").toList

/-- Embedding of the `COLUMN_HEADERS` constant. -/
def COLUMN_HEADERS : List (List Char) :=
  layoutHeader :: METRICS_ORDER.map (fun e => e.display)

/-- A CSV cell value: a rounded float or a (possibly empty) string. -/
inductive Cell where
  | num (q : ℚ)
  | str (s : List Char)
deriving DecidableEq

/-- Cell computed for one column definition in `build_layout_row`, following
the source's `if`/`elif` chain. -/
def cellFor (e : ColumnSpec) (total : ℚ)
    (md : List (List Char × MetricEntry)) : Cell :=
  if e.fmt = .number && e.display = totalCostHeader then
    .num (roundPyQ total (e.decimals.getD 0))
  else if e.fmt = .number && (dictLookup md e.metric).isSome then
    .num (roundPyQ ((dictLookup md e.metric).map (fun x => x.cost)).iget (e.decimals.getD 0))
  else if (e.fmt = .message_only || e.fmt = .worst_only)
      && (dictLookup md e.metric).isSome then
    .str (clean_worst_message
      (((dictLookup md e.metric).map (fun x => x.message)).iget) e.metric)
  else .str []

/-- Embedding of `build_layout_row`: keys are inserted in `COLUMN_HEADERS`
order. -/
def build_layout_row (layout : List Char) (total : ℚ)
    (md : List (List Char × MetricEntry)) : List (List Char × Cell) :=
  (layoutHeader, .str layout) :: METRICS_ORDER.map (fun e => (e.display, cellFor e total md))

/-- Stable insertion used to model Python `sorted(data, key=...)`: the new
element goes after every element with a key less than or equal to its own. -/
def insertByTotal (x : RawResult) : List RawResult → List RawResult
  | [] => [x]
  | y :: ys => if y.total_cost ≤ x.total_cost then y :: insertByTotal x ys else x :: y :: ys

/-- Python `sorted(data, key=lambda x: x["total_cost"])`: a stable ascending
sort. -/
def sortByTotal (l : List RawResult) : List RawResult :=
  l.foldl (fun acc x => insertByTotal x acc) []

/-- Embedding of `parse_layouts`: `corpus = none` models no corpus name (an
empty frequency table); `some lines` models a named corpus with those file
lines.  `none` models a propagated exception. -/
def parse_layouts (data : List RawResult) (corpus : Option (List (List Char))) :
    Option (List (List (List Char × Cell))) :=
  match (match corpus with
         | none => some ([] : FreqDict)
         | some lines => load_bigram_frequencies lines) with
  | none => none
  | some bf =>
    (sortByTotal data).mapM (fun r =>
      (process_layout_metrics r bf).map (fun md =>
        build_layout_row r.details.layout r.total_cost md))

/-- Rendering of a cell as `csv.writer` receives it (`str` of a float keeps
one decimal for integral values). -/
def renderCell : Cell → List Char
  | .num q => pyStrFloat q
  | .str s => s

/-- Embedding of `export_csv` as the list of rows written: the header row then
one row per record, cells in `COLUMN_HEADERS` order.  Rows built by
`build_layout_row` always contain every header, so the default never fires. -/
def export_csv (records : List (List (List Char × Cell))) : List (List (List Char)) :=
  COLUMN_HEADERS :: records.map (fun rec =>
    COLUMN_HEADERS.map (fun h => renderCell (dictLookupD rec h (.str []))))

/-- The `"Layout (layer 1):"` section marker of the text log. -/
def diagMarker : List Char := ("Layout (layer 1):").toList

/-- Newline separator. -/
def nlSep : List Char := ("
").toList

/-- Section accumulation loop of `parse_diagrams`: start a new section at
every marker-prefixed line (except when the current section is empty). -/
def buildSections (content : List Char) : List (List Char) :=
  let step := (splitOnSub nlSep content).foldl (fun st line =>
    if startsWithB diagMarker line && !st.2.isEmpty then
      (st.1 ++ [joinSep nlSep st.2], [line])
    else (st.1, st.2 ++ [line])) (([] : List (List Char)), ([] : List (List Char)))
  if step.2.isEmpty then step.1 else step.1 ++ [joinSep nlSep step.2]

/-- Literal of the `re.search` pattern `Layout string \(layer 1\):\n(.+)`. -/
def lsLit : List Char := ("Layout string (layer 1):
").toList

/-- Fuelled `re.search` for `Layout string \(layer 1\):\n(.+)`: at each
position require the literal, a newline (inside `lsLit`), then a non-empty
run of non-newline characters as the capture. -/
def findLS : Nat → List Char → Option (List Char)
  | _, [] => none
  | 0, _ => none
  | f + 1, c :: r =>
    if startsWithB lsLit (c :: r) then
      let cap := ((c :: r).drop lsLit.length).takeWhile (fun x => x ≠ '\n')
      if cap.isEmpty then findLS f r else some cap
    else findLS f r

/-- Shorter `"Layout string"` marker used by `parse_layout_diagram`. -/
def lsShort : List Char := ("Layout string").toList

/-- Embedding of `parse_layout_diagram`. -/
def parse_layout_diagram (text : List Char) : List (List Char) :=
  let lines := splitOnSub nlSep text
  match lines.findIdx? (fun l => containsSub diagMarker l) with
  | none => []
  | some i =>
    ((lines.drop (i + 1)).takeWhile (fun l => containsSub lsShort l = false)).filter
      (fun l => !(stripWS l).isEmpty)

/-- Embedding of `parse_diagrams`.  The filesystem is modelled by the boolean
`txtExists`; a missing text log raises `FileNotFoundError` with a message
naming the path, modelled as `.error`.  SVG writing is modelled by the
returned `(layout string, svg path)` pairs, exactly what the source
accumulates. -/
def parse_diagrams (txtExists : Bool) (content txtPath outDir : List Char) :
    Except (List Char) (List (List Char × List Char)) :=
  if txtExists = false then
    .error (("Results file not found: ").toList ++ txtPath)
  else
    .ok ((buildSections content).filterMap (fun sec =>
      match findLS sec.length sec with
      | none => none
      | some cap =>
        let layoutString := stripWS cap
        if (parse_layout_diagram sec).isEmpty then none
        else some (layoutString, outDir ++ ("/").toList ++ layoutString ++ (".svg").toList)))

/-- Artifact-producing steps of the `main` command, in execution order. -/
inductive MainStep where
  | exportCsv
  | parseDiagrams
  | exportMarkdown
deriving DecidableEq

/-- Modelled from the source's `main`: the CSV is always exported first; the
diagram and markdown steps run only when the companion text log exists. -/
def mainSteps (txtExists : Bool) : List MainStep :=
  .exportCsv :: (if txtExists then [.parseDiagrams, .exportMarkdown] else [])

/-!  Specification-side definitions.  Each follows the words of a claim (or
of an amended claim) and is compared with the embedding above. -/

/-- Specification reading of claim C3: the extraction section is the
substring after the `"Worst:"` marker, truncated before the next `";"` if
one exists. -/
def specC3Extract (m : List Char) : Option (List (List Char × ℚ)) :=
  if containsSub worstMarker m = false then some []
  else
    let sec := beforeFirstSub semiSep (afterFirstSub worstMarker m)
    (scanCollect tryPair sec.length sec).mapM
      (fun p => (parseDigitsDots p.2).map (fun q => (p.1, q)))

/-- Amended reading of claim C3: the section stops at the next `"Worst:"`
marker (if any) before being truncated at the next `";"`. -/
def specC3Section (m : List Char) : List Char :=
  beforeFirstSub semiSep (beforeFirstSub worstMarker (afterFirstSub worstMarker m))

/-- Parsing step shared by the extraction statements: each captured run must
be a valid decimal number. -/
def parsePairs (l : List (List Char × List Char)) : Option (List (List Char × ℚ)) :=
  l.mapM (fun p => (parseDigitsDots p.2).map (fun q => (p.1, q)))

/-- Specification-side cleanup for the disbalance metrics, written from the
amended claim C6: same stages as `clean_worst_message` but with the
case-analysed rounding rule `specTryBare` in place of the backtracking
matcher. -/
def specCleanDisb (m : List Char) : List Char :=
  stripWS (scanSub specTryBare (removeLabels (cutNonFixed m)).length
    (removeLabels (cutNonFixed m)))

/-- Modelled from the spec (claim C8): flattening of a result's metric costs
with no enrichment applied, the expected no-op behaviour when no corpus is
supplied. -/
def plainFlatten (result : RawResult) : List (List Char × MetricEntry) :=
  result.details.individual_results.foldl (fun acc ir =>
    ir.metric_costs.foldl (fun acc mc =>
      dictInsert acc mc.core.name { cost := mc.weighted_cost, message := mc.core.message }) acc) []

/-- Acceptance rule of one corpus line, written from claim C8: the pair is
kept iff the line has a second token of exactly two alphabetic characters
(and a parseable first token). -/
def acceptPair (line : List Char) : Option (List Char × ℚ) :=
  let parts := splitOnSub [(' ')] (stripWS line)
  if 2 ≤ parts.length then
    match pyFloatToken (parts.getD 0 []) with
    | none => none
    | some freq =>
      let bigram := parts.getD 1 []
      if bigram.length = 2 && bigram.all pyIsAlpha then some (bigram, freq) else none
  else none

/-- A corpus line on which `float(parts[0])` raises. -/
def lineCrashes (line : List Char) : Bool :=
  let parts := splitOnSub [(' ')] (stripWS line)
  2 ≤ parts.length && (pyFloatToken (parts.getD 0 [])).isNone

/-- The frequency of the last accepted occurrence of a bigram, written from
claim C8's last-occurrence-wins wording. -/
def lastAcceptedFreq (lines : List (List Char)) (b : List Char) : Option ℚ :=
  ((lines.filterMap acceptPair).reverse.find? (fun p => decide (p.1 = b))).map (fun p => p.2)

/-- Specification-side predicate from claim C8's parenthetical: a plain
letter only — an ASCII letter, encoded in a single byte (anything multi-byte
in UTF-8 is excluded). -/
def specC8PlainLetter (c : Char) : Bool :=
  c.isAlpha && decide (c.utf8Size = 1)

/-- A pattern has no non-trivial border: no proper prefix equals the suffix
of the same length.  All three labels of `clean_worst_message` satisfy this,
which rules out occurrences straddling an inserted label. -/
def borderFree (pat : List Char) : Prop :=
  ∀ k, k < pat.length → 0 < k → pat.drop k ≠ pat.take (pat.length - k)

/-!  Lemmas about the string primitives. -/

theorem startsWithB_append_self (p t : List Char) : startsWithB p (p ++ t) = true := by
  induction p with
  | nil => rfl
  | cons a as ih => simp [startsWithB, ih]

theorem length_le_of_startsWithB {p s : List Char} (h : startsWithB p s = true) :
    p.length ≤ s.length := by
  induction p generalizing s with
  | nil => simp
  | cons a as ih =>
    cases s with
    | nil => simp [startsWithB] at h
    | cons b bs =>
      simp only [startsWithB] at h
      split at h
      · simpa using ih h
      · simp at h

theorem take_eq_of_startsWithB {p s : List Char} (h : startsWithB p s = true) :
    s.take p.length = p := by
  induction p generalizing s with
  | nil => simp
  | cons a as ih =>
    cases s with
    | nil => simp [startsWithB] at h
    | cons b bs =>
      simp only [startsWithB] at h
      split at h
      · next hab => simp [List.take, ih h, hab]
      · simp at h

theorem startsWithB_of_take {p s : List Char} (hlen : p.length ≤ s.length)
    (ht : s.take p.length = p) : startsWithB p s = true := by
  induction p generalizing s with
  | nil => rfl
  | cons a as ih =>
    cases s with
    | nil => simp at hlen
    | cons b bs =>
      simp only [List.length_cons, List.take_succ_cons, List.cons.injEq] at ht
      simp only [List.length_cons, Nat.succ_le_succ_iff] at hlen
      simp [startsWithB, ht.1, ih hlen ht.2]

theorem startsWithB_append_right {p s : List Char} (t : List Char)
    (h : startsWithB p s = true) : startsWithB p (s ++ t) = true := by
  induction p generalizing s with
  | nil => rfl
  | cons a as ih =>
    cases s with
    | nil => simp [startsWithB] at h
    | cons b bs =>
      simp only [startsWithB] at h ⊢
      split at h
      · next hab => simpa [hab] using ih h
      · simp at h

theorem findSubIdx_nil {p : List Char} (hp : p ≠ []) : findSubIdx p [] = none := by
  cases p with
  | nil => exact absurd rfl hp
  | cons a as => simp [findSubIdx, startsWithB]

theorem containsSub_cons (p : List Char) (c : Char) (s : List Char) :
    containsSub p (c :: s) = (startsWithB p (c :: s) || containsSub p s) := by
  simp only [containsSub, findSubIdx]
  split
  · simp_all
  · next h =>
    simp only [h, Bool.false_or]
    cases findSubIdx p s <;> simp

theorem containsSub_of_startsWithB {p s : List Char} (h : startsWithB p s = true) :
    containsSub p s = true := by
  cases s with
  | nil => simp [containsSub, findSubIdx, h]
  | cons c r => simp [containsSub_cons, h]

theorem containsSub_append_right {p s : List Char} (a : List Char)
    (h : containsSub p s = true) : containsSub p (a ++ s) = true := by
  induction a with
  | nil => simpa
  | cons c cs ih => simp [containsSub_cons, ih]

theorem containsSub_append_left {p s : List Char} (t : List Char)
    (h : containsSub p s = true) : containsSub p (s ++ t) = true := by
  induction s with
  | nil =>
    simp only [containsSub, findSubIdx] at h
    split at h
    · next hs => exact containsSub_of_startsWithB (startsWithB_append_right t hs)
    · simp at h
  | cons c cs ih =>
    rw [containsSub_cons] at h
    rcases Bool.or_eq_true_iff.mp h with h1 | h2
    · exact containsSub_of_startsWithB (startsWithB_append_right t h1)
    · rw [List.cons_append, containsSub_cons, ih h2, Bool.or_true]

theorem containsSub_self_append (p t : List Char) : containsSub p (p ++ t) = true :=
  containsSub_of_startsWithB (startsWithB_append_self p t)

theorem findSubIdx_bound {p s : List Char} {i : Nat} (h : findSubIdx p s = some i) :
    i + p.length ≤ s.length := by
  induction s generalizing i with
  | nil =>
    simp only [findSubIdx] at h
    split at h
    · next hs =>
      cases h
      simpa using length_le_of_startsWithB hs
    · cases h
  | cons c r ih =>
    simp only [findSubIdx] at h
    split at h
    · next hs =>
      cases h
      simpa using length_le_of_startsWithB hs
    · cases hr : findSubIdx p r with
      | none => rw [hr] at h; cases h
      | some j =>
        rw [hr] at h
        cases h
        have := ih hr
        simp only [List.length_cons]
        omega

theorem findSubIdx_of_startsWithB {p s : List Char} (h : startsWithB p s = true) :
    findSubIdx p s = some 0 := by
  cases s with
  | nil => simp [findSubIdx, h]
  | cons c r => simp [findSubIdx, h]

theorem findSubIdx_insert {pat : List Char} (hb : borderFree pat) :
    ∀ a b : List Char, containsSub pat (a ++ b) = false →
      findSubIdx pat (a ++ pat ++ b) = some a.length := by
  intro a
  induction a with
  | nil =>
    intro b _
    simpa using findSubIdx_of_startsWithB (startsWithB_append_self pat b)
  | cons c a' ih =>
    intro b hcon
    rw [List.cons_append] at hcon
    have hshape : (c :: a') ++ pat ++ b = c :: (a' ++ pat ++ b) := by simp
    have htail : containsSub pat (a' ++ b) = false := by
      have h := containsSub_cons pat c (a' ++ b)
      rw [hcon] at h
      exact (Bool.or_eq_false_iff.mp h.symm).2
    have hsw : startsWithB pat (c :: (a' ++ pat ++ b)) = false := by
      cases hx : startsWithB pat (c :: (a' ++ pat ++ b)) with
      | false => rfl
      | true =>
        exfalso
        have htake := take_eq_of_startsWithB hx
        have hsplit : c :: (a' ++ pat ++ b) = (c :: a') ++ (pat ++ b) := by simp
        by_cases hlen : pat.length ≤ (c :: a').length
        · have h1 : (c :: (a' ++ pat ++ b)).take pat.length = (c :: a').take pat.length := by
            rw [hsplit, List.take_append_eq_append_take,
              Nat.sub_eq_zero_of_le hlen, List.take_zero, List.append_nil]
          have hsw2 : startsWithB pat (c :: a') = true :=
            startsWithB_of_take hlen (by rw [← h1, htake])
          have hc : containsSub pat ((c :: a') ++ b) = true :=
            containsSub_append_left b (containsSub_of_startsWithB hsw2)
          rw [List.cons_append] at hc
          rw [hc] at hcon
          cases hcon
        · push_neg at hlen
          have h2 : pat = (c :: a') ++ pat.take (pat.length - (c :: a').length) := by
            conv_lhs => rw [← htake]
            rw [hsplit, List.take_append_eq_append_take,
              List.take_of_length_le (Nat.le_of_lt hlen),
              List.take_append_eq_append_take,
              Nat.sub_eq_zero_of_le (Nat.sub_le _ _), List.take_zero, List.append_nil]
          have h3 : pat.drop (c :: a').length = pat.take (pat.length - (c :: a').length) := by
            conv_lhs => rw [h2]
            exact List.drop_left _ _
          exact hb (c :: a').length hlen (by simp) h3
    rw [hshape]
    have hgoal : findSubIdx pat (c :: (a' ++ pat ++ b)) =
        (findSubIdx pat (a' ++ pat ++ b)).map (fun i => i + 1) := by
      simp only [findSubIdx]
      rw [hsw]
      simp
    rw [hgoal, ih b htail]
    simp

theorem findSubIdx_none_of_not_contains {pat s : List Char}
    (h : containsSub pat s = false) : findSubIdx pat s = none := by
  cases hx : findSubIdx pat s with
  | none => rfl
  | some i => rw [containsSub, hx] at h; cases h

theorem replaceAllF_not_contains {old new s : List Char}
    (h : containsSub old s = false) (fuel : Nat) : replaceAllF old new fuel s = s := by
  rw [replaceAllF, findSubIdx_none_of_not_contains h]

theorem pyReplaceAll_not_contains {old new s : List Char}
    (h : containsSub old s = false) : pyReplaceAll old new s = s := by
  unfold pyReplaceAll
  split
  · rfl
  · exact replaceAllF_not_contains h _

theorem replaceAllF_insert {pat : List Char} (hb : borderFree pat) (_hne : pat ≠ [])
    {a b : List Char} (h : containsSub pat (a ++ b) = false) :
    ∀ fuel, 0 < fuel → replaceAllF pat [] fuel (a ++ pat ++ b) = a ++ b := by
  intro fuel hf
  have hidx := findSubIdx_insert hb a b h
  cases fuel with
  | zero => omega
  | succ f =>
    rw [replaceAllF, hidx]
    show (a ++ pat ++ b).take a.length ++ [] ++
        replaceAllF pat [] f ((a ++ pat ++ b).drop (a.length + pat.length)) = a ++ b
    have htake : (a ++ pat ++ b).take a.length = a := by
      rw [List.append_assoc]
      exact List.take_left a (pat ++ b)
    have hdrop : (a ++ pat ++ b).drop (a.length + pat.length) = b := by
      have : (a ++ pat).length = a.length + pat.length := List.length_append a pat
      rw [← this]
      exact List.drop_left (a ++ pat) b
    have hbfree : containsSub pat b = false := by
      cases hx : containsSub pat b with
      | false => rfl
      | true => rw [containsSub_append_right a hx] at h; cases h
    rw [htake, hdrop, replaceAllF_not_contains hbfree]
    simp

theorem pyReplaceAll_insert {pat : List Char} (hb : borderFree pat) (hne : pat ≠ [])
    {a b : List Char} (h : containsSub pat (a ++ b) = false) :
    pyReplaceAll pat [] (a ++ pat ++ b) = a ++ b := by
  unfold pyReplaceAll
  rw [if_neg (by simpa using hne)]
  apply replaceAllF_insert hb hne h
  have : 1 ≤ pat.length := by
    cases pat with
    | nil => exact absurd rfl hne
    | cons x xs => simp
  simp only [List.length_append]
  omega

theorem splitOnSubF_head {pat : List Char} (hp : pat ≠ []) :
    ∀ fuel (m : List Char), m.length ≤ fuel →
      (splitOnSubF pat fuel m).getD 0 [] = beforeFirstSub pat m := by
  intro fuel m hlen
  cases hx : findSubIdx pat m with
  | none => rw [splitOnSubF, hx, beforeFirstSub, hx]; rfl
  | some i =>
    have hbound := findSubIdx_bound hx
    have hple : 1 ≤ pat.length := by
      cases pat with
      | nil => exact absurd rfl hp
      | cons x xs => simp
    cases fuel with
    | zero => omega
    | succ f => rw [splitOnSubF, hx, beforeFirstSub, hx]; rfl

theorem splitOnSub_head {pat : List Char} (hp : pat ≠ []) (m : List Char) :
    (splitOnSub pat m).getD 0 [] = beforeFirstSub pat m :=
  splitOnSubF_head hp m.length m le_rfl

theorem splitOnSub_get1 {pat m : List Char} (hp : pat ≠ [])
    (h : containsSub pat m = true) :
    (splitOnSub pat m).getD 1 [] = beforeFirstSub pat (afterFirstSub pat m) := by
  obtain ⟨i, hx⟩ : ∃ i, findSubIdx pat m = some i := by
    cases hy : findSubIdx pat m with
    | none => rw [containsSub, hy] at h; cases h
    | some j => exact ⟨j, rfl⟩
  have hbound := findSubIdx_bound hx
  have hple : 1 ≤ pat.length := by
    cases pat with
    | nil => exact absurd rfl hp
    | cons x xs => simp
  obtain ⟨n, hn⟩ : ∃ n, m.length = n + 1 := by
    cases hm : m.length with
    | zero => omega
    | succ k => exact ⟨k, rfl⟩
  have hrest : (m.drop (i + pat.length)).length ≤ n := by
    rw [List.length_drop]
    omega
  rw [splitOnSub, hn, splitOnSubF, hx]
  have hafter : afterFirstSub pat m = m.drop (i + pat.length) := by
    rw [afterFirstSub, hx]
  rw [hafter]
  exact splitOnSubF_head hp n (m.drop (i + pat.length)) hrest

theorem cutSemi_eq (s : List Char) :
    (if containsSub semiSep s then (splitOnSub semiSep s).getD 0 [] else s) =
      beforeFirstSub semiSep s := by
  split
  · exact splitOnSub_head (by decide) s
  · next h =>
    rw [beforeFirstSub,
      findSubIdx_none_of_not_contains (by cases hx : containsSub semiSep s; rfl; exact absurd hx h)]

theorem mem_takeWhile_pred {p : Char → Bool} :
    ∀ {l : List Char} {c : Char}, c ∈ l.takeWhile p → p c = true := by
  intro l
  induction l with
  | nil => intro c h; simp [List.takeWhile] at h
  | cons x xs ih =>
    intro c h
    rw [List.takeWhile] at h
    cases hx : p x with
    | false => rw [hx] at h; simp at h
    | true =>
      rw [hx] at h
      rcases List.mem_cons.mp h with h1 | h2
      · rwa [h1]
      · exact ih h2

theorem takeWhile_append_stop {p : Char → Bool} {xs : List Char}
    (hxs : ∀ c ∈ xs, p c = true) {y : Char} (hy : p y = false) (r : List Char) :
    (xs ++ y :: r).takeWhile p = xs ∧ (xs ++ y :: r).dropWhile p = y :: r := by
  induction xs with
  | nil => simp [List.takeWhile, List.dropWhile, hy]
  | cons x xs ih =>
    have hx : p x = true := hxs x (by simp)
    have ih2 := ih (fun c hc => hxs c (by simp [hc]))
    rw [List.cons_append, List.takeWhile_cons, List.dropWhile_cons, hx]
    simp only [if_true]
    exact ⟨by rw [ih2.1], ih2.2⟩

theorem takeWhile_all {p : Char → Bool} {l : List Char}
    (h : ∀ c ∈ l, p c = true) :
    l.takeWhile p = l ∧ l.dropWhile p = [] := by
  induction l with
  | nil => simp
  | cons x xs ih =>
    have hx : p x = true := h x (by simp)
    have ih2 := ih (fun c hc => h c (by simp [hc]))
    rw [List.takeWhile_cons, List.dropWhile_cons, hx]
    simp only [if_true]
    exact ⟨by rw [ih2.1], ih2.2⟩

theorem drop_pred_singleton :
    ∀ l : List Char, l ≠ [] → ∃ c, l.drop (l.length - 1) = [c] ∧ c ∈ l := by
  intro l
  induction l with
  | nil => intro h; exact absurd rfl h
  | cons x xs ih =>
    intro _
    cases hxs : xs with
    | nil => exact ⟨x, by simp, by simp⟩
    | cons y ys =>
      subst hxs
      obtain ⟨c, hc1, hc2⟩ := ih (by simp)
      refine ⟨c, ?_, List.mem_cons_of_mem x hc2⟩
      have hlen : (x :: y :: ys).length - 1 = (y :: ys).length - 1 + 1 := by simp
      rw [hlen, List.drop_succ_cons, hc1]

theorem not_pct_of_isDigit {c : Char} (h : Char.isDigit c = true) : ('%' = c) = False := by
  simp only [eq_iff_iff, iff_false]
  intro he
  rw [← he] at h
  exact absurd h (by decide)

theorem btkAux_spec {fs r3 : List Char} (hfs : fs ≠ [])
    (hdig : ∀ c ∈ fs, Char.isDigit c = true) :
    btkAux fs r3 fs.length =
      if startsWithB lookPR r3 then
        (if 2 ≤ fs.length then some (fs.length - 1) else none)
      else some fs.length := by
  obtain ⟨n, hn⟩ : ∃ n, fs.length = n + 1 := by
    cases hl : fs.length with
    | zero => exact absurd (List.length_eq_zero.mp hl) hfs
    | succ k => exact ⟨k, rfl⟩
  rw [hn, btkAux]
  have hdrop : fs.drop (n + 1) = [] := List.drop_of_length_le (by omega)
  rw [hdrop, List.nil_append]
  cases hsw : startsWithB lookPR r3 with
  | false => simp [hn]
  | true =>
    simp only [if_true]
    cases hnn : n with
    | zero => rw [btkAux]; simp [hn, hnn]
    | succ m =>
      rw [btkAux]
      obtain ⟨c, hc1, hc2⟩ := drop_pred_singleton fs hfs
      have hm1 : m + 1 = fs.length - 1 := by omega
      rw [hm1, hc1]
      have hcd : Char.isDigit c = true := hdig c hc2
      have hsw2 : startsWithB lookPR ([c] ++ r3) = false := by
        show startsWithB [('%'), (')')] (c :: r3) = false
        simp [startsWithB, not_pct_of_isDigit hcd]
      rw [hsw2]
      simp [hn, hnn]

theorem tryBare_eq_spec (s : List Char) : tryBare s = specTryBare s := by
  simp only [tryBare, specTryBare]
  cases hds : (s.takeWhile Char.isDigit).isEmpty with
  | true => simp
  | false =>
    simp only [Bool.false_eq_true, if_false]
    cases hdot : startsWithB [('.')] (s.dropWhile Char.isDigit) with
    | false => simp
    | true =>
      simp only [if_true]
      set r2 := (s.dropWhile Char.isDigit).drop 1 with hr2
      cases hfs : (r2.takeWhile Char.isDigit).isEmpty with
      | true => simp
      | false =>
        simp only [Bool.false_eq_true, if_false]
        have hfs_ne : r2.takeWhile Char.isDigit ≠ [] := by
          intro h
          rw [h] at hfs
          cases hfs
        have hdig : ∀ c ∈ r2.takeWhile Char.isDigit, Char.isDigit c = true :=
          fun c hc => mem_takeWhile_pred hc
        rw [btkAux_spec hfs_ne hdig]
        cases hsw : startsWithB lookPR (r2.dropWhile Char.isDigit) with
        | false =>
          simp only [Bool.false_eq_true, if_false, if_true]
          rw [List.take_length, List.drop_length, List.nil_append]
        | true =>
          simp only [if_true, Bool.true_eq_false, if_false]
          by_cases h2 : 2 ≤ (r2.takeWhile Char.isDigit).length
          · rw [if_pos h2, if_pos h2]
          · rw [if_neg h2, if_neg h2]

theorem scanSub_congr {t1 t2 : List Char → Option (List Char × List Char)}
    (h : ∀ s, t1 s = t2 s) : ∀ (fuel : Nat) (s : List Char),
      scanSub t1 fuel s = scanSub t2 fuel s := by
  intro fuel
  induction fuel with
  | zero => intro s; cases s <;> rfl
  | succ f ih =>
    intro s
    cases s with
    | nil => rfl
    | cons c rest =>
      rw [scanSub, scanSub, h]
      cases t2 (c :: rest) with
      | none => simp [ih]
      | some pr => cases pr with | mk rep rem => simp [ih]

theorem clean_disb_eq_spec (m : List Char) :
    clean_worst_message m fbName = specCleanDisb m ∧
      clean_worst_message m hdName = specCleanDisb m := by
  constructor <;>
  · rw [clean_worst_message, specCleanDisb]
    rw [if_pos (by decide)]
    rw [scanSub_congr tryBare_eq_spec]

theorem extract_no_marker {m : List Char} (h : containsSub worstMarker m = false) :
    extract_worst_bigrams m = some [] := by
  rw [extract_worst_bigrams, if_pos h]

theorem extract_marker_case {m : List Char} (h : containsSub worstMarker m = true) :
    extract_worst_bigrams m =
      parsePairs (scanCollect tryPair (specC3Section m).length (specC3Section m)) := by
  simp only [extract_worst_bigrams, h, Bool.true_eq_false, if_false]
  rw [splitOnSub_get1 (by decide) h, cutSemi_eq]
  rfl

/-!  Lemmas about sorting. -/

theorem mem_insertByTotal {x y : RawResult} :
    ∀ {l : List RawResult}, y ∈ insertByTotal x l ↔ y = x ∨ y ∈ l := by
  intro l
  induction l with
  | nil => simp [insertByTotal]
  | cons z zs ih =>
    rw [insertByTotal]
    split
    · rw [List.mem_cons, ih, List.mem_cons]
      tauto
    · simp only [List.mem_cons]

theorem insertByTotal_sorted {x : RawResult} :
    ∀ {l : List RawResult},
      l.Pairwise (fun u v => u.total_cost ≤ v.total_cost) →
      (insertByTotal x l).Pairwise (fun u v => u.total_cost ≤ v.total_cost) := by
  intro l
  induction l with
  | nil => intro _; simp [insertByTotal]
  | cons z zs ih =>
    intro hp
    rw [List.pairwise_cons] at hp
    rw [insertByTotal]
    split
    · next hle =>
      rw [List.pairwise_cons]
      constructor
      · intro y hy
        rcases mem_insertByTotal.mp hy with h1 | h2
        · rw [h1]; exact hle
        · exact hp.1 y h2
      · exact ih hp.2
    · next hgt =>
      push_neg at hgt
      rw [List.pairwise_cons]
      constructor
      · intro y hy
        rcases List.mem_cons.mp hy with h1 | h2
        · rw [h1]; exact le_of_lt hgt
        · exact le_trans (le_of_lt hgt) (hp.1 y h2)
      · rw [List.pairwise_cons]
        exact hp

theorem sortByTotal_sorted (l : List RawResult) :
    (sortByTotal l).Pairwise (fun u v => u.total_cost ≤ v.total_cost) := by
  suffices h : ∀ acc, acc.Pairwise (fun u v : RawResult => u.total_cost ≤ v.total_cost) →
      (l.foldl (fun acc x => insertByTotal x acc) acc).Pairwise
        (fun u v => u.total_cost ≤ v.total_cost) by
    exact h [] (by simp)
  induction l with
  | nil => intro acc hacc; exact hacc
  | cons x xs ih =>
    intro acc hacc
    exact ih (insertByTotal x acc) (insertByTotal_sorted hacc)

theorem insertByTotal_filter {x : RawResult} (q : ℚ) :
    ∀ {l : List RawResult},
      l.Pairwise (fun u v => u.total_cost ≤ v.total_cost) →
      (insertByTotal x l).filter (fun r => decide (r.total_cost = q)) =
        if x.total_cost = q then
          l.filter (fun r => decide (r.total_cost = q)) ++ [x]
        else l.filter (fun r => decide (r.total_cost = q)) := by
  intro l
  induction l with
  | nil =>
    intro _
    rw [insertByTotal, List.filter_cons]
    cases hx : decide (x.total_cost = q) with
    | true => rw [if_pos (of_decide_eq_true hx)]; simp
    | false => rw [if_neg (of_decide_eq_false hx)]; simp
  | cons z zs ih =>
    intro hp
    rw [List.pairwise_cons] at hp
    rw [insertByTotal]
    split
    · next hle =>
      rw [List.filter_cons, List.filter_cons]
      cases hz : decide (z.total_cost = q) with
      | true =>
        simp only [if_true]
        rw [ih hp.2]
        split <;> simp
      | false =>
        simp only [Bool.false_eq_true, if_false]
        exact ih hp.2
    · next hgt =>
      push_neg at hgt
      cases hx : decide (x.total_cost = q) with
      | true =>
        have hxq : x.total_cost = q := of_decide_eq_true hx
        have hall : ∀ r ∈ z :: zs, r.total_cost ≠ q := by
          intro r hr hc
          rcases List.mem_cons.mp hr with h1 | h2
          · rw [h1] at hc; linarith
          · have hzr := hp.1 r h2; linarith
        have hnil : (z :: zs).filter (fun r => decide (r.total_cost = q)) = [] :=
          List.filter_eq_nil_iff.mpr (fun r hr => by simpa using hall r hr)
        rw [if_pos hxq, List.filter_cons, hx, hnil]
        simp
      | false =>
        have hxq : x.total_cost ≠ q := of_decide_eq_false hx
        rw [if_neg hxq, List.filter_cons, hx]
        simp

theorem sortByTotal_filter (l : List RawResult) (q : ℚ) :
    (sortByTotal l).filter (fun r => decide (r.total_cost = q)) =
      l.filter (fun r => decide (r.total_cost = q)) := by
  suffices h : ∀ acc, acc.Pairwise (fun u v : RawResult => u.total_cost ≤ v.total_cost) →
      (l.foldl (fun acc x => insertByTotal x acc) acc).filter
          (fun r => decide (r.total_cost = q)) =
        acc.filter (fun r => decide (r.total_cost = q)) ++
          l.filter (fun r => decide (r.total_cost = q)) by
    simpa using h [] (by simp)
  induction l with
  | nil => intro acc _; simp
  | cons x xs ih =>
    intro acc hacc
    rw [List.foldl_cons, ih (insertByTotal x acc) (insertByTotal_sorted hacc),
      insertByTotal_filter q hacc, List.filter_cons]
    cases hx : decide (x.total_cost = q) with
    | true =>
      rw [if_pos (of_decide_eq_true hx)]
      simp
    | false =>
      rw [if_neg (of_decide_eq_false hx)]
      simp

/-!  Lemmas about the dict model and the corpus loader. -/

theorem dictLookup_insert {α : Type} (d : List (List Char × α)) (k : List Char) (v : α)
    (b : List Char) :
    dictLookup (dictInsert d k v) b = if b = k then some v else dictLookup d b := by
  induction d with
  | nil =>
    by_cases hbk : b = k
    · simp [dictInsert, dictLookup, List.find?, hbk]
    · have : decide (k = b) = false := decide_eq_false (fun h => hbk h.symm)
      simp [dictInsert, dictLookup, List.find?, this, hbk]
  | cons e rest ih =>
    rw [dictInsert]
    by_cases hek : e.1 = k
    · rw [if_pos hek]
      by_cases hbk : b = k
      · have : decide (k = b) = true := decide_eq_true hbk.symm
        simp [dictLookup, List.find?, this, hbk]
      · have h1 : decide (k = b) = false := decide_eq_false (fun h => hbk h.symm)
        have h2 : decide (e.1 = b) = false :=
          decide_eq_false (fun h => hbk (by rw [← h, hek]))
        simp [dictLookup, List.find?, h1, h2, hbk]
    · rw [if_neg hek]
      by_cases heb : e.1 = b
      · have hbk : ¬ b = k := fun h => hek (by rw [heb, h])
        have : decide (e.1 = b) = true := decide_eq_true heb
        simp [dictLookup, List.find?, this, hbk]
      · have : decide (e.1 = b) = false := decide_eq_false heb
        simp only [dictLookup, List.find?, this]
        have ihx := ih
        rw [dictLookup] at ihx
        rw [ihx]
        rfl

theorem loadStep_crash {acc : FreqDict} {line : List Char}
    (h : lineCrashes line = true) : loadStep acc line = none := by
  rw [lineCrashes] at h
  rw [loadStep]
  rcases Bool.and_eq_true_iff.mp h with ⟨h1, h2⟩
  rw [if_pos (by exact of_decide_eq_true h1)]
  cases hf : pyFloatToken ((splitOnSub [(' ')] (stripWS line)).getD 0 []) with
  | none => rfl
  | some v => rw [hf] at h2; cases h2

theorem loadStep_ok {acc : FreqDict} {line : List Char}
    (h : lineCrashes line = false) :
    loadStep acc line =
      some (match acceptPair line with
            | some kv => dictInsert acc kv.1 kv.2
            | none => acc) := by
  rw [lineCrashes, Bool.and_eq_false_iff] at h
  by_cases hlen : 2 ≤ (splitOnSub [(' ')] (stripWS line)).length
  · cases hf : pyFloatToken ((splitOnSub [(' ')] (stripWS line)).getD 0 []) with
    | none =>
      exfalso
      rcases h with h1 | h2
      · rw [decide_eq_true hlen] at h1; cases h1
      · rw [hf] at h2; cases h2
    | some freq =>
      simp only [loadStep, acceptPair, if_pos hlen, hf]
      cases hbg : (decide ((((splitOnSub [(' ')] (stripWS line)).getD 1 []).length = 2))
          && ((splitOnSub [(' ')] (stripWS line)).getD 1 []).all pyIsAlpha) with
      | true => simp [hbg]
      | false => simp [hbg]
  · simp only [loadStep, acceptPair, if_neg hlen]

theorem acceptPair_good {line : List Char} {kv : List Char × ℚ}
    (hap : acceptPair line = some kv) :
    kv.1.length = 2 ∧ kv.1.all pyIsAlpha = true := by
  by_cases hlen : 2 ≤ (splitOnSub [(' ')] (stripWS line)).length
  · cases hf : pyFloatToken ((splitOnSub [(' ')] (stripWS line)).getD 0 []) with
    | none =>
      rw [acceptPair, if_pos hlen] at hap
      simp only [hf] at hap
      exact Option.noConfusion hap
    | some freq =>
      rw [acceptPair, if_pos hlen] at hap
      simp only [hf] at hap
      cases hbg : (decide ((((splitOnSub [(' ')] (stripWS line)).getD 1 []).length = 2))
          && ((splitOnSub [(' ')] (stripWS line)).getD 1 []).all pyIsAlpha) with
      | true =>
        rw [hbg, if_pos rfl] at hap
        cases hap
        rcases Bool.and_eq_true_iff.mp hbg with ⟨hg1, hg2⟩
        exact ⟨of_decide_eq_true hg1, hg2⟩
      | false =>
        rw [hbg] at hap
        simp at hap
  · rw [acceptPair, if_neg hlen] at hap
    cases hap

theorem load_fold_keys :
    ∀ (lines : List (List Char)) (acc tbl : FreqDict),
      (∀ b, (dictLookup acc b).isSome = true → b.length = 2 ∧ b.all pyIsAlpha = true) →
      lines.foldlM loadStep acc = some tbl →
      ∀ b, (dictLookup tbl b).isSome = true → b.length = 2 ∧ b.all pyIsAlpha = true := by
  intro lines
  induction lines with
  | nil =>
    intro acc tbl hacc hfold
    have : acc = tbl := by simpa using hfold
    rw [← this]
    exact hacc
  | cons line rest ih =>
    intro acc tbl hacc hfold
    rw [List.foldlM_cons] at hfold
    cases hcr : lineCrashes line with
    | true => rw [loadStep_crash hcr] at hfold; cases hfold
    | false =>
      rw [loadStep_ok hcr] at hfold
      cases hap : acceptPair line with
      | none =>
        rw [hap] at hfold
        exact ih acc tbl hacc (by simpa using hfold)
      | some kv =>
        rw [hap] at hfold
        apply ih (dictInsert acc kv.1 kv.2) tbl ?_ (by simpa using hfold)
        intro b hb
        rw [dictLookup_insert] at hb
        by_cases hbk : b = kv.1
        · rw [hbk]
          exact acceptPair_good hap
        · rw [if_neg hbk] at hb
          exact hacc b hb

theorem load_fold_lookup :
    ∀ (lines : List (List Char)) (acc tbl : FreqDict),
      lines.foldlM loadStep acc = some tbl →
      ∀ b, dictLookup tbl b =
        match lastAcceptedFreq lines b with
        | some v => some v
        | none => dictLookup acc b := by
  intro lines
  induction lines with
  | nil =>
    intro acc tbl hfold b
    have : acc = tbl := by simpa using hfold
    rw [← this]
    simp [lastAcceptedFreq]
  | cons line rest ih =>
    intro acc tbl hfold b
    rw [List.foldlM_cons] at hfold
    cases hcr : lineCrashes line with
    | true => rw [loadStep_crash hcr] at hfold; cases hfold
    | false =>
      rw [loadStep_ok hcr] at hfold
      cases hap : acceptPair line with
      | none =>
        rw [hap] at hfold
        have hrec := ih acc tbl (by simpa using hfold) b
        rw [hrec]
        simp only [lastAcceptedFreq]
        rw [List.filterMap_cons, hap]
      | some kv =>
        rw [hap] at hfold
        have hrec := ih (dictInsert acc kv.1 kv.2) tbl (by simpa using hfold) b
        rw [hrec]
        simp only [lastAcceptedFreq]
        rw [List.filterMap_cons, hap, List.reverse_cons, List.find?_append]
        cases hfind : (rest.filterMap acceptPair).reverse.find? (fun p => decide (p.1 = b)) with
        | some pr => simp [Option.or]
        | none =>
          by_cases hbk : b = kv.1
          · have hd : decide (kv.1 = b) = true := decide_eq_true hbk.symm
            simp [Option.or, List.find?, hd, dictLookup_insert, hbk]
          · have hd : decide (kv.1 = b) = false := decide_eq_false (fun h => hbk h.symm)
            simp [Option.or, List.find?, hd, dictLookup_insert, hbk]

/-!  Lemmas about no-corpus processing. -/

theorem foldlM_eq_foldl_of_some {α β : Type} (fM : β → α → Option β) (f : β → α → β)
    (h : ∀ b a, fM b a = some (f b a)) :
    ∀ (l : List α) (acc : β), l.foldlM fM acc = some (l.foldl f acc) := by
  intro l
  induction l with
  | nil => intro acc; rfl
  | cons x xs ih =>
    intro acc
    rw [List.foldlM_cons, h, List.foldl_cons]
    show xs.foldlM fM (f acc x) = some (xs.foldl f (f acc x))
    exact ih (f acc x)

theorem process_layout_metrics_empty (r : RawResult) :
    process_layout_metrics r [] = some (plainFlatten r) := by
  rw [process_layout_metrics, plainFlatten]
  apply foldlM_eq_foldl_of_some
  intro acc ir
  apply foldlM_eq_foldl_of_some
  intro acc2 mc
  simp

theorem mapM_eq_map_of_some {α β : Type} (fM : α → Option β) (f : α → β)
    (h : ∀ a, fM a = some (f a)) : ∀ l : List α, l.mapM fM = some (l.map f) := by
  intro l
  induction l with
  | nil => rfl
  | cons x xs ih =>
    rw [List.mapM_cons, h, ih]
    rfl

theorem parse_layouts_none (data : List RawResult) :
    parse_layouts data none =
      some ((sortByTotal data).map (fun r =>
        build_layout_row r.details.layout r.total_cost (plainFlatten r))) := by
  rw [parse_layouts]
  show (sortByTotal data).mapM (fun r =>
      (process_layout_metrics r []).map (fun md =>
        build_layout_row r.details.layout r.total_cost md)) = _
  apply mapM_eq_map_of_some
  intro r
  rw [process_layout_metrics_empty]
  rfl

theorem row_layout_lookup (l : List Char) (t : ℚ) (md : List (List Char × MetricEntry)) :
    dictLookupD (build_layout_row l t md) layoutHeader (Cell.str []) = Cell.str l := by
  simp [build_layout_row, dictLookupD, dictLookup, List.find?]

theorem row_keys (l : List Char) (t : ℚ) (md : List (List Char × MetricEntry)) :
    (build_layout_row l t md).map Prod.fst = COLUMN_HEADERS := by
  simp [build_layout_row, COLUMN_HEADERS, List.map_map, Function.comp]

theorem containsSub_joinSep {x : List Char} (sep : List Char) :
    ∀ {parts : List (List Char)}, x ∈ parts →
      containsSub x (joinSep sep parts) = true := by
  intro parts
  induction parts with
  | nil => intro h; simp at h
  | cons p ps ih =>
    intro h
    cases ps with
    | nil =>
      have hx : x = p := by simpa using h
      rw [hx, joinSep]
      have h2 := containsSub_self_append p ([] : List Char)
      rwa [List.append_nil] at h2
    | cons q qs =>
      rcases List.mem_cons.mp h with h1 | h2
      · rw [h1, joinSep]
        have h3 := containsSub_self_append p (sep ++ joinSep sep (q :: qs))
        rwa [← List.append_assoc] at h3
      · rw [joinSep]
        exact containsSub_append_right (p ++ sep) (ih h2)

theorem isEmpty_false_of_ne_nil {α : Type} {l : List α} (h : l ≠ []) :
    l.isEmpty = false := by
  cases l with
  | nil => exact absurd rfl h
  | cons x xs => rfl

theorem add_frequencies_shape {m : List Char} {bf : FreqDict}
    {ws : List (List Char × ℚ)} (hx : extract_worst_bigrams m = some ws)
    (hne : ws ≠ []) :
    add_frequencies m bf = some (
      ((splitOnSub worstMarker m).getD 0 [] ++ ("Worst: ").toList
        ++ joinSep ((", ").toList) (ws.map (enhancePart bf)))
      ++ (if containsSub semiSep m then semiSep ++ afterFirstSub semiSep m else [])) := by
  have hmk : containsSub worstMarker m = true := by
    cases hc : containsSub worstMarker m with
    | true => rfl
    | false =>
      rw [extract_no_marker hc] at hx
      cases hx
      exact absurd rfl hne
  simp only [add_frequencies, hx]
  rw [if_neg (by simp [isEmpty_false_of_ne_nil hne, hmk])]
  by_cases hsemi : containsSub semiSep m = true
  · rw [if_pos hsemi, if_pos hsemi, List.append_assoc]
  · rw [if_neg hsemi, if_neg hsemi, List.append_nil]

theorem scanSub_single {try' : List Char → Option (List Char × List Char)}
    {s rep : List Char} (h : try' s = some (rep, [])) (hs : s ≠ []) :
    scanSub try' s.length s = rep := by
  cases s with
  | nil => exact absurd rfl hs
  | cons c rest =>
    show scanSub try' (rest.length + 1) (c :: rest) = rep
    rw [scanSub, h]
    show rep ++ scanSub try' rest.length [] = rep
    cases rest <;> simp [scanSub]

theorem format_frequencies_token (ds fs : List Char) (hds : ds ≠ [])
    (hdig : ∀ c ∈ ds, Char.isDigit c = true)
    (hfsd : ∀ c ∈ fs, Char.isDigit c = true) :
    format_frequencies (freqLit ++ ds ++ ('.') :: fs) =
      freqLit ++ fmt3 (decVal ds fs) := by
  have htry : tryFreq (freqLit ++ ds ++ ('.') :: fs) =
      some (freqLit ++ fmt3 (decVal ds fs), []) := by
    have hshape : freqLit ++ ds ++ ('.') :: fs = freqLit ++ (ds ++ ('.') :: fs) :=
      List.append_assoc freqLit ds (('.') :: fs)
    have hspan := takeWhile_append_stop (p := Char.isDigit) (y := ('.')) hdig (by decide) fs
    have hdot : startsWithB [('.')] (('.') :: fs) = true := by simp [startsWithB]
    have hfspan := takeWhile_all hfsd
    simp only [tryFreq, hshape, startsWithB_append_self, List.drop_left, hspan.1, hspan.2,
      isEmpty_false_of_ne_nil hds, hdot, List.drop_succ_cons, List.drop_zero,
      hfspan.1, hfspan.2, if_true, Bool.false_eq_true, if_false]
  have hne : freqLit ++ ds ++ ('.') :: fs ≠ [] := by simp [freqLit]
  rw [format_frequencies, scanSub_single htry hne]

theorem add_freq_no_marker {m : List Char} (bf : FreqDict)
    (h : containsSub worstMarker m = false) : add_frequencies m bf = some m := by
  rw [add_frequencies, extract_no_marker h]
  simp

theorem add_freq_no_match {m : List Char} (bf : FreqDict)
    (h : scanCollect tryPair (specC3Section m).length (specC3Section m) = []) :
    add_frequencies m bf = some m := by
  cases hc : containsSub worstMarker m with
  | false => exact add_freq_no_marker bf hc
  | true =>
    have hx := extract_marker_case hc
    rw [h] at hx
    have hp : parsePairs ([] : List (List Char × List Char)) = some [] := rfl
    rw [hp] at hx
    rw [add_frequencies, hx]
    simp

theorem dictLookup_cons_ne {α : Type} (k : List Char) (v : α)
    (rest : List (List Char × α)) (b : List Char) (h : ¬ k = b) :
    dictLookup ((k, v) :: rest) b = dictLookup rest b := by
  simp [dictLookup, List.find?, decide_eq_false h]

theorem dictLookup_map_displays (f : ColumnSpec → Cell) :
    ∀ (L : List ColumnSpec) (d : ColumnSpec),
      L.Pairwise (fun a b => a.display ≠ b.display) → d ∈ L →
      dictLookup (L.map (fun e => (e.display, f e))) d.display = some (f d) := by
  intro L
  induction L with
  | nil => intro d _ hd; simp at hd
  | cons x xs ih =>
    intro d hp hd
    rw [List.pairwise_cons] at hp
    rcases List.mem_cons.mp hd with h1 | h2
    · subst h1
      simp [dictLookup, List.find?]
    · have hne : ¬ x.display = d.display := fun hcontra => (hp.1 d h2) hcontra
      rw [List.map_cons, dictLookup_cons_ne _ _ _ _ hne]
      exact ih d hp.2 h2

theorem cellFor_absent (e : ColumnSpec) (total : ℚ) (md : List (List Char × MetricEntry))
    (hnone : dictLookup md e.metric = none) (hne : e.display ≠ totalCostHeader) :
    cellFor e total md = Cell.str [] := by
  simp [cellFor, hnone, hne]

theorem row_absent (layout : List Char) (total : ℚ) (md : List (List Char × MetricEntry))
    (e : ColumnSpec) (hmem : e ∈ METRICS_ORDER) (hnone : dictLookup md e.metric = none)
    (hne : e.display ≠ totalCostHeader) :
    dictLookup (build_layout_row layout total md) e.display = some (Cell.str []) := by
  rw [build_layout_row]
  have hld : ¬ layoutHeader = e.display := by
    have hall : ∀ x ∈ METRICS_ORDER, ¬ x.display = layoutHeader := by decide
    intro hcontra
    exact (hall e hmem) hcontra.symm
  rw [dictLookup_cons_ne _ _ _ _ hld,
    dictLookup_map_displays (fun e => cellFor e total md) METRICS_ORDER e (by decide) hmem,
    cellFor_absent e total md hnone hne]

/-!  Claim theorems.  The `Rat` arithmetic operations are made locally
semireducible so that closed statements evaluate inside `decide`. -/

section ClaimTheorems

attribute [local semireducible] Rat.mul Rat.inv Rat.add Rat.sub Rat.ofScientific

/-- C1 counterexample: the claim says every row is keyed by `Layout` plus
eleven metric columns (twelve columns in total); the code's rows have
`Layout` plus twelve metric columns, thirteen in total. -/
theorem C1_counterexample :
    ((build_layout_row [] 0 []).map Prod.fst).length = 13 ∧
      ¬ ((build_layout_row [] 0 []).map Prod.fst).length = 12 := by
  refine ⟨by decide, by decide⟩

/-- C1 (amended): every normalized row is keyed by the fixed, ordered set of
column names `Layout` plus twelve metric columns; the column set and order is
identical across all rows regardless of which metrics were present, and a
column whose source metric is absent for a layout (other than `Total Cost`,
which is always computed from the record's total) renders as the empty
string, never omitted or reordered. -/
theorem C1_amended :
    (∀ (layout : List Char) (total : ℚ) (md : List (List Char × MetricEntry)),
      (build_layout_row layout total md).map Prod.fst = COLUMN_HEADERS) ∧
    (∀ (layout : List Char) (total : ℚ) (md : List (List Char × MetricEntry))
        (e : ColumnSpec), e ∈ METRICS_ORDER → dictLookup md e.metric = none →
        e.display ≠ totalCostHeader →
        dictLookup (build_layout_row layout total md) e.display = some (Cell.str [])) :=
  ⟨row_keys, row_absent⟩

/-- C1 witness: the amended claim at a concrete empty metrics dict, for the
`Scissoring` column. -/
theorem C1_witness :
    (build_layout_row [] 0 []).map Prod.fst = COLUMN_HEADERS ∧
      dictLookup (build_layout_row [] 0 [])
        (("Scissoring").toList) = some (Cell.str []) :=
  ⟨C1_amended.1 [] 0 [],
    C1_amended.2 [] 0 []
      ⟨("Scissoring").toList, ("Scissoring").toList, .number, some 2⟩
      (by decide) (by decide) (by decide)⟩

/-- C2: rows are sorted ascending by `total_cost` with a stable sort (the
filtered subsequence of any fixed total equals that of the input); the row
order of `parse_layouts` is the sorted order; and for the two-layout input
with totals `10` and `5`, the first CSV data row after the header is the
layout with total `5`, rendered `5.0`. -/
theorem C2_theorem :
    (∀ data : List RawResult,
      (sortByTotal data).Pairwise (fun u v => u.total_cost ≤ v.total_cost)) ∧
    (∀ (data : List RawResult) (q : ℚ),
      (sortByTotal data).filter (fun r => decide (r.total_cost = q)) =
        data.filter (fun r => decide (r.total_cost = q))) ∧
    (∀ data : List RawResult,
      (parse_layouts data none).map (fun rows => rows.map
        (fun rec => dictLookupD rec layoutHeader (Cell.str []))) =
      some ((sortByTotal data).map (fun r => Cell.str r.details.layout))) ∧
    ((export_csv ((parse_layouts
        [⟨10, ⟨("LayA").toList, []⟩⟩, ⟨5, ⟨("LayB").toList, []⟩⟩] none).getD [])).getD 1 []
      = [("LayB").toList, ("5.0").toList, [], [], [], [], [], [], [], [], [], [], []]) := by
  refine ⟨sortByTotal_sorted, sortByTotal_filter, ?_, by decide⟩
  intro data
  rw [parse_layouts_none]
  simp [List.map_map, Function.comp, row_layout_lookup]

/-- C3 counterexample: on a message with a second `Worst:` marker and no
semicolon, the code truncates the section at the second marker, while the
claim's section (everything after the marker, up to the next `;`) yields a
second pair. -/
theorem C3_counterexample :
    extract_worst_bigrams (("Worst: ab (1.1%) Worst: cd (2.2%)").toList)
        = some [((("ab").toList), 11/10)] ∧
    specC3Extract (("Worst: ab (1.1%) Worst: cd (2.2%)").toList)
        = some [((("ab").toList), 11/10), ((("cd").toList), 11/5)] ∧
    extract_worst_bigrams (("Worst: ab (1.1%) Worst: cd (2.2%)").toList) ≠
      specC3Extract (("Worst: ab (1.1%) Worst: cd (2.2%)").toList) := by
  refine ⟨by decide, by decide, by decide⟩

/-- C3 (amended): a message without the `Worst:` marker yields the empty
list; otherwise extraction returns one (bigram, percent) pair per occurrence
of the pattern, in match order, within the substring after the first
`Worst:` marker, truncated at the next `Worst:` marker (if any) and then
before the next `;` (if any); a pattern occurrence whose numeric capture is
not a valid decimal makes extraction fail (`none`).  In particular the
claim's example extracts `[(th, 4.32), (he, 3.1)]`. -/
theorem C3_amended :
    (∀ m : List Char, containsSub worstMarker m = false →
      extract_worst_bigrams m = some []) ∧
    (∀ m : List Char, containsSub worstMarker m = true →
      extract_worst_bigrams m =
        parsePairs (scanCollect tryPair (specC3Section m).length (specC3Section m))) ∧
    extract_worst_bigrams
        (("abc Worst: th (4.32%), he (3.1%); Worst non-fixed: xy (9.9%)").toList)
      = some [((("th").toList), 108/25), ((("he").toList), 31/10)] :=
  ⟨fun _ h => extract_no_marker h, fun _ h => extract_marker_case h, by decide⟩

/-- C3 witness: the amended claim applied at a marker-free message and at a
single-finding message. -/
theorem C3_witness :
    extract_worst_bigrams (("hello").toList) = some [] ∧
    extract_worst_bigrams (("Worst: th (4.32%)").toList) =
      parsePairs (scanCollect tryPair
        (specC3Section (("Worst: th (4.32%)").toList)).length
        (specC3Section (("Worst: th (4.32%)").toList))) :=
  ⟨C3_amended.1 _ (by decide), C3_amended.2.1 _ (by decide)⟩

/-- C4 counterexample: `add_frequencies` emits the frequency as two decimals
followed by `%` with no stripping (the appended `%` defeats the
`rstrip`), producing the very `4.50%` form the claim forbids. -/
theorem C4_counterexample :
    add_frequencies (("Worst: th (4.32%)").toList) [((("th").toList), 9/2)]
        = some (("Worst: th (4.32%, freq: 4.50%)").toList) ∧
    containsSub (("4.50%").toList) (("Worst: th (4.32%, freq: 4.50%)").toList) = true ∧
    (("Worst: th (4.32%, freq: 4.50%)").toList : List Char)
      ≠ ("Worst: th (4.32%, freq: 4.5%)").toList := by
  refine ⟨by decide, by decide, by decide⟩

/-- C4 (amended): enrichment rewrites each finding as
`bigram (percent%, freq: F%)` where `F` is the looked-up frequency (0 when
absent) formatted to exactly two decimals — the zero-stripping is
ineffective because the `%` is appended first; the stripped form (`4.5%`,
`0.0%`) appears only after the subsequent `format_frequencies` pass that
`process_layout_metrics` applies right after enrichment. -/
theorem C4_amended :
    (∀ (m : List Char) (bf : FreqDict) (ws : List (List Char × ℚ)) (bp : List Char × ℚ),
      extract_worst_bigrams m = some ws → bp ∈ ws →
      containsSub (enhancePart bf bp) ((add_frequencies m bf).getD []) = true) ∧
    (format_frequencies ((add_frequencies (("Worst: th (4.32%)").toList)
        [((("th").toList), 9/2)]).getD []) = ("Worst: th (4.32%, freq: 4.5%)").toList) ∧
    (format_frequencies ((add_frequencies (("Worst: th (4.32%)").toList) []).getD [])
        = ("Worst: th (4.32%, freq: 0.0%)").toList) := by
  refine ⟨?_, by decide, by decide⟩
  intro m bf ws bp hx hmem
  have hne : ws ≠ [] := by
    intro h
    rw [h] at hmem
    simp at hmem
  rw [add_frequencies_shape hx hne]
  show containsSub (enhancePart bf bp) _ = true
  apply containsSub_append_left
  apply containsSub_append_right
  exact containsSub_joinSep _ (List.mem_map_of_mem (enhancePart bf) hmem)

/-- C4 witness: the amended claim's shape property at the concrete enriched
message. -/
theorem C4_witness :
    containsSub (enhancePart [((("th").toList), 9/2)] ((("th").toList), 108/25))
      ((add_frequencies (("Worst: th (4.32%)").toList)
        [((("th").toList), 9/2)]).getD []) = true :=
  C4_amended.1 _ _ [((("th").toList), 108/25)] _ (by decide) (by decide)

/-- C5: `format_frequencies` reformats every occurrence of `freq: <number>`
to three decimal places with trailing zeros stripped, restoring a single
trailing `.0` when stripping removes all fractional digits (`fmt3` is
exactly that formatting); the claim's three examples hold, and multiple
occurrences are each reformatted. -/
theorem C5_theorem :
    (∀ ds fs : List Char, ds ≠ [] → (∀ c ∈ ds, Char.isDigit c = true) →
      (∀ c ∈ fs, Char.isDigit c = true) →
      format_frequencies (freqLit ++ ds ++ ('.') :: fs) =
        freqLit ++ fmt3 (decVal ds fs)) ∧
    format_frequencies (("freq: 4.500000").toList) = ("freq: 4.5").toList ∧
    format_frequencies (("freq: 4.000000").toList) = ("freq: 4.0").toList ∧
    format_frequencies (("freq: 4.125000").toList) = ("freq: 4.125").toList ∧
    format_frequencies (("a freq: 4.500000 b freq: 2.250000;").toList)
      = ("a freq: 4.5 b freq: 2.25;").toList :=
  ⟨format_frequencies_token, by decide, by decide, by decide, by decide⟩

/-- C5 witness: the general statement at the claim's `4.500000` token. -/
theorem C5_witness :
    format_frequencies (freqLit ++ (("4").toList) ++ ('.') :: (("500000").toList))
      = freqLit ++ fmt3 (decVal (("4").toList) (("500000").toList)) :=
  C5_theorem.1 _ _ (by decide) (by decide) (by decide)

/-- C6 counterexample: for the disbalance metrics the negative lookahead
backtracks, so the number `12.345`, although immediately followed by `%)`,
is partially matched and rewritten, contradicting the claim that only bare
numbers are rounded. -/
theorem C6_counterexample :
    clean_worst_message (("12.345%)").toList) fbName = ("12.35%)").toList ∧
    clean_worst_message (("12.345%)").toList) fbName ≠ ("12.345%)").toList := by
  refine ⟨by decide, by decide⟩

/-- C6 (amended): for `Hand Disbalance` and `Finger Balance`,
`clean_worst_message` rounds decimal numbers to 1 decimal place under the
backtracking rule `specTryBare`: a number not immediately followed by `%)`
is rounded whole; a number immediately followed by `%)` is left intact only
when it has a single fractional digit, otherwise it is matched without its
last fractional digit and that prefix is rounded in place.  For every other
metric name only numbers immediately followed by `%,` are rounded, to 2
decimal places.  In particular the claim's example still yields `12.3`. -/
theorem C6_amended :
    (∀ s : List Char, tryBare s = specTryBare s) ∧
    (∀ m : List Char, clean_worst_message m fbName = specCleanDisb m ∧
      clean_worst_message m hdName = specCleanDisb m) ∧
    clean_worst_message (("Finger loads % (no thumb): 12.345").toList) fbName
      = ("12.3").toList ∧
    clean_worst_message (("5.555 x (1.236%, y)").toList) (("Key Costs").toList)
      = ("5.555 x (1.24%, y)").toList :=
  ⟨tryBare_eq_spec, clean_disb_eq_spec, by decide, by decide⟩

/-- C7 counterexample: a `Worst:` section whose only pattern occurrence
carries the unparseable capture `1..2` makes `add_frequencies` fail (the
modelled `ValueError` of `float`), instead of returning the message. -/
theorem C7_counterexample :
    add_frequencies (("Worst: ab (1..2%)").toList) [] = none ∧
    parseDigitsDots (("1..2").toList) = none ∧
    add_frequencies (("Worst: ab (1..2%)").toList) []
      ≠ some (("Worst: ab (1..2%)").toList) := by
  refine ⟨by decide, by decide, by decide⟩

/-- C7 (amended): for every message lacking the `Worst:` marker, and for
every message whose `Worst:` section contains no occurrence of the finding
pattern, `add_frequencies` returns the message byte-identical for every
frequency table; a section containing a pattern occurrence with an
unparseable numeric capture instead raises. -/
theorem C7_amended :
    (∀ (m : List Char) (bf : FreqDict), containsSub worstMarker m = false →
      add_frequencies m bf = some m) ∧
    (∀ (m : List Char) (bf : FreqDict),
      scanCollect tryPair (specC3Section m).length (specC3Section m) = [] →
      add_frequencies m bf = some m) :=
  ⟨fun _ bf h => add_freq_no_marker bf h, fun _ bf h => add_freq_no_match bf h⟩

/-- C7 witness: the amended claim at a marker-free message and at a message
whose section has no pattern occurrence. -/
theorem C7_witness :
    add_frequencies (("hello there").toList) [] = some (("hello there").toList) ∧
    add_frequencies (("Worst: nothing; x").toList) []
      = some (("Worst: nothing; x").toList) :=
  ⟨C7_amended.1 _ _ (by decide), C7_amended.2 _ _ (by decide)⟩

/-- C8 counterexample: Python's Unicode `str.isalpha` accepts non-ASCII
letters, so the corpus line `4.5 \u00e9\u00e9` is accepted into the table with
the bigram `\u00e9\u00e9`, whose characters are two-byte in UTF-8 and not plain
ASCII letters — contradicting the claim's "no digits, punctuation, or
multi-byte sequences" clause. -/
theorem C8_counterexample :
    load_bigram_frequencies [("4.5 \u00E9\u00E9").toList]
        = some [((("\u00E9\u00E9").toList), 9/2)] ∧
    (("\u00E9\u00E9").toList).length = 2 ∧
    (("\u00E9\u00E9").toList).all specC8PlainLetter = false ∧
    ('\u00E9').utf8Size = 2 ∧ pyIsAlpha ('\u00E9') = true := by
  refine ⟨by decide, by decide, by decide, by decide, by decide⟩

/-- C8 (amended): every bigram accepted into the frequency table is exactly
two alphabetic characters in Python's Unicode sense (`pyIsAlpha`) — digits
and punctuation are rejected, but non-ASCII, multi-byte letters such as
`\u00e9` are accepted; the stored frequency of a bigram is the one on
the last accepted line mentioning it; and with no corpus name the table is
empty so enrichment is a no-op: processing leaves every message untouched
and `parse_layouts` reduces to plain flattening of the sorted records. -/
theorem C8_amended :
    (∀ (lines : List (List Char)) (tbl : FreqDict) (b : List Char),
      load_bigram_frequencies lines = some tbl → (dictLookup tbl b).isSome = true →
      b.length = 2 ∧ b.all pyIsAlpha = true) ∧
    (∀ (lines : List (List Char)) (tbl : FreqDict) (b : List Char),
      load_bigram_frequencies lines = some tbl →
      dictLookup tbl b = lastAcceptedFreq lines b) ∧
    (∀ r : RawResult, process_layout_metrics r [] = some (plainFlatten r)) ∧
    (∀ data : List RawResult, parse_layouts data none =
      some ((sortByTotal data).map (fun r =>
        build_layout_row r.details.layout r.total_cost (plainFlatten r)))) := by
  refine ⟨?_, ?_, process_layout_metrics_empty, parse_layouts_none⟩
  · intro lines tbl b hl hs
    exact load_fold_keys lines [] tbl
      (fun b hb => by simp [dictLookup] at hb) hl b hs
  · intro lines tbl b hl
    rw [load_fold_lookup lines [] tbl hl b]
    cases lastAcceptedFreq lines b <;> simp [dictLookup]

/-- C8 witness: a concrete three-line corpus — with a non-ASCII bigram —
exercising acceptance and last-occurrence-wins. -/
theorem C8_witness :
    ((("\u00E9\u00E9").toList).length = 2 ∧
      (("\u00E9\u00E9").toList).all pyIsAlpha = true) ∧
    dictLookup [((("\u00E9\u00E9").toList), (11/5 : ℚ)), ((("cd").toList), 3)]
        (("\u00E9\u00E9").toList)
      = lastAcceptedFreq
          [("4.5 \u00E9\u00E9").toList, ("3.0 cd").toList, ("2.2 \u00E9\u00E9").toList]
          (("\u00E9\u00E9").toList) :=
  ⟨C8_amended.1
      [("4.5 \u00E9\u00E9").toList, ("3.0 cd").toList, ("2.2 \u00E9\u00E9").toList]
      [((("\u00E9\u00E9").toList), 11/5), ((("cd").toList), 3)] _ (by decide) (by decide),
   C8_amended.2.1
      [("4.5 \u00E9\u00E9").toList, ("3.0 cd").toList, ("2.2 \u00E9\u00E9").toList]
      [((("\u00E9\u00E9").toList), 11/5), ((("cd").toList), 3)] _ (by decide)⟩

/-- C9: `parse_diagrams` fails, with an error naming the text log path,
exactly when the log does not exist; and in the CLI flow the CSV export step
always precedes the diagram and markdown steps, which run only when the log
exists. -/
theorem C9_theorem :
    (∀ content txtPath outDir : List Char,
      parse_diagrams false content txtPath outDir =
        .error ((("Results file not found: ").toList) ++ txtPath)) ∧
    (∀ content txtPath outDir : List Char,
      (parse_diagrams true content txtPath outDir).toOption.isSome = true) ∧
    mainSteps true = [.exportCsv, .parseDiagrams, .exportMarkdown] ∧
    mainSteps false = [.exportCsv] :=
  ⟨fun _ _ _ => rfl, fun _ _ _ => rfl, rfl, rfl⟩

/-- C10: `clean_worst_message` removes each of the three label strings
wherever it occurs, not only as a leading prefix: inserting a label between
any two label-free fragments removes exactly that occurrence, and a
mid-string `Worst: ` occurrence disappears in the full cleanup. -/
theorem C10_theorem :
    (∀ a b : List Char,
      containsSub fingerLabel (a ++ b) = false →
      containsSub handLabel (a ++ b) = false →
      containsSub worstLabel (a ++ b) = false →
      removeLabels (a ++ fingerLabel ++ b) = a ++ b) ∧
    (∀ a b : List Char,
      containsSub fingerLabel (a ++ handLabel ++ b) = false →
      containsSub handLabel (a ++ b) = false →
      containsSub worstLabel (a ++ b) = false →
      removeLabels (a ++ handLabel ++ b) = a ++ b) ∧
    (∀ a b : List Char,
      containsSub fingerLabel (a ++ worstLabel ++ b) = false →
      containsSub handLabel (a ++ worstLabel ++ b) = false →
      containsSub worstLabel (a ++ b) = false →
      removeLabels (a ++ worstLabel ++ b) = a ++ b) ∧
    clean_worst_message (("abc Worst: def").toList) [] = ("abc def").toList := by
  have hbF : borderFree fingerLabel := by unfold borderFree; decide
  have hbH : borderFree handLabel := by unfold borderFree; decide
  have hbW : borderFree worstLabel := by unfold borderFree; decide
  refine ⟨?_, ?_, ?_, by decide⟩
  · intro a b h1 h2 h3
    rw [removeLabels, pyReplaceAll_insert hbF (by decide) h1,
      pyReplaceAll_not_contains h2, pyReplaceAll_not_contains h3]
  · intro a b h1 h2 h3
    rw [removeLabels, pyReplaceAll_not_contains h1,
      pyReplaceAll_insert hbH (by decide) h2, pyReplaceAll_not_contains h3]
  · intro a b h1 h2 h3
    rw [removeLabels, pyReplaceAll_not_contains h1, pyReplaceAll_not_contains h2,
      pyReplaceAll_insert hbW (by decide) h3]

/-- C10 witness: a mid-string label occurrence removed by `removeLabels`. -/
theorem C10_witness :
    removeLabels ((("x ").toList) ++ fingerLabel ++ (("y").toList))
      = (("x ").toList) ++ (("y").toList) :=
  C10_theorem.1 _ _ (by decide) (by decide) (by decide)

end ClaimTheorems

end PR
